import Mathlib

/-!
Verification of the tiny-parsec parser-combinator library (Go).

The Go library is shallowly embedded as follows.

* A Go `string` is a byte sequence; we model it as `Bytes := List Nat`
  (each element a byte value `< 256`; for the ASCII literals used in the
  concrete inputs below, `mkStr` produces exactly the UTF-8 bytes).
* `Maybe[Tuple[T, string]]`, the return type of `Parser[T].Parse`, is
  modelled by `PR T` with a third value `PR.div` that marks a run of the
  Go parser that never returns (the recursive combinators `ZeroOrMore`,
  `OneOrMore`, ... recurse without a decreasing measure; in Go such a run
  exhausts the stack instead of returning).  The recursive combinators
  are therefore fuel-indexed and return `PR.div` when the fuel bound is
  insufficient; `PR.fail` is exactly Go's `Nothing`, `PR.ok` exactly
  Go's `Just(Tuple(v, rest))`.
* Each definition is a direct translation of the Go function of the same
  name (`Pure` becomes `pureP`, `ZeroOrMore` becomes `zeroOrMoreF`, and
  so on); the Go source file is named in the comment of each definition.
-/

/-- A Go string: a list of byte values. -/
abbrev Bytes := List Nat

/-- Result of running a parser, `parser/container.go` `Maybe[Tuple[T, string]]`:
`ok v rest` is `Just(Tuple(v, rest))`, `fail` is `Nothing`, and `div` marks a
run that never returns (unbounded recursion / stack exhaustion in Go). -/
inductive PR (T : Type) : Type
  | div : PR T
  | fail : PR T
  | ok (v : T) (rest : Bytes) : PR T
  deriving DecidableEq, Repr

/-- `parser/parser.go` `ParserFunc[T]`: the function wrapped by `Parser[T]`. -/
abbrev ParserF (T : Type) := Bytes → PR T

/-- Byte list of an ASCII Lean string literal (for ASCII characters the
code point equals the single UTF-8 byte, so this is the Go string's bytes). -/
def mkStr (s : String) : Bytes := s.data.map Char.toNat

/-- `parser/basic.go` `Pure`: always succeeds with `val`, consuming nothing. -/
def pureP {T : Type} (v : T) : ParserF T := fun s => .ok v s

/-- `parser/basic.go` `Fail`: always fails, consuming nothing. -/
def failP {T : Type} : ParserF T := fun _ => .fail

/-- `parser/combinator.go` `Satisfy`: tests the first byte `s[0]`
(converted to a rune, i.e. to its numeric value) with `f`; on success
consumes exactly that byte; fails on empty input. -/
def satisfyP (f : Nat → Bool) : ParserF Nat := fun s =>
  match s with
  | [] => .fail
  | b :: rest => if f b then .ok b rest else .fail

/-- `parser/basic.go` `Char`: `Satisfy (r == c)`. -/
def charP (c : Nat) : ParserF Nat := satisfyP (fun r => r == c)

/-- Modelled from the spec: `NotChar(c)` is used by the INI grammar
(`ISectionName`, `IEntry`) but its definition is not under `src/`; per
§4.2 the single-character class primitives are built on `satisfy`, so it
is reconstructed as the complement match `Satisfy (r ≠ c)`. -/
def NotChar (c : Nat) : ParserF Nat := satisfyP (fun r => r != c)

/-- `parser/basic.go` `Str`: matches the literal `l` at the start of the
input (`strings.HasPrefix` / `strings.TrimPrefix`). -/
def strP (l : Bytes) : ParserF Bytes := fun s =>
  if l.isPrefixOf s then .ok l (s.drop l.length) else .fail

/-- `parser/combinator.go` `Fmap`: transforms the value on success. -/
def fmapP {T U : Type} (p : ParserF T) (f : T → U) : ParserF U := fun s =>
  match p s with
  | .div => .div
  | .fail => .fail
  | .ok t r => .ok (f t) r

/-- `parser/combinator.go` `Bind`: runs `f` on the value against the rest. -/
def bindP {T U : Type} (p : ParserF T) (f : T → ParserF U) : ParserF U := fun s =>
  match p s with
  | .div => .div
  | .fail => .fail
  | .ok t r => f t r

/-- `parser/combinator.go` `OrElse`: tries each parser against the
original input, in order, returning the first success. -/
def orElseP {T : Type} : List (ParserF T) → ParserF T
  | [] => fun _ => .fail
  | p :: ps => fun s =>
    match p s with
    | .ok v r => .ok v r
    | .div => .div
    | .fail => orElseP ps s

/-- `parser/combinator.go` `ZeroOrMore`, fuel-indexed: applies `p`
repeatedly until it fails.  On `p`'s failure it returns `Just([], s)`;
on `p`'s success it recurses on the rest and conses (the Go code does
this through `Bind(ZeroOrMore(p), ...)`, whose failure branch is kept).
Fuel `0` is `div`: the Go recursion has no decreasing measure, and for a
parser that succeeds without consuming it never returns. -/
def zeroOrMoreF {T : Type} : Nat → ParserF T → ParserF (List T)
  | 0, _ => fun _ => .div
  | fuel + 1, p => fun s =>
    match p s with
    | .div => .div
    | .fail => .ok [] s
    | .ok t s' =>
      match zeroOrMoreF fuel p s' with
      | .div => .div
      | .fail => .fail
      | .ok ts s'' => .ok (t :: ts) s''

/-- `parser/combinator.go` `OneOrMore`: `p` once, then `ZeroOrMore p`. -/
def oneOrMoreF {T : Type} (fuel : Nat) (p : ParserF T) : ParserF (List T) := fun s =>
  match p s with
  | .div => .div
  | .fail => .fail
  | .ok t s' =>
    match zeroOrMoreF fuel p s' with
    | .div => .div
    | .fail => .fail
    | .ok ts s'' => .ok (t :: ts) s''

/-- `parser/combinator.go` `ZeroOrOne`: never fails, yields an option. -/
def zeroOrOneP {T : Type} (p : ParserF T) : ParserF (Option T) := fun s =>
  match p s with
  | .div => .div
  | .fail => .ok none s
  | .ok t r => .ok (some t) r

/-- `parser/combinator.go` `OmitLeft`. -/
def omitLeftP {T U : Type} (p : ParserF T) (q : ParserF U) : ParserF U :=
  bindP p (fun _ => q)

/-- `parser/combinator.go` `OmitRight`. -/
def omitRightP {T U : Type} (p : ParserF T) (q : ParserF U) : ParserF T :=
  bindP p (fun t => bindP q (fun _ => pureP t))

/-- `parser/combinator.go` `SepBy`: first element via `Bind`, then
`ZeroOrMore` of separator-then-element, with `Pure []` as fallback. -/
def sepByF {T U : Type} (fuel : Nat) (p : ParserF T) (sep : ParserF U) : ParserF (List T) :=
  orElseP
    [ bindP p (fun first =>
        fmapP (zeroOrMoreF fuel (bindP sep (fun _ => p))) (fun rest => first :: rest))
    , pureP [] ]

/-- `parser/combinator.go` `SatisfyWith`: post-filters a parser's value. -/
def satisfyWithP {T : Type} (p : ParserF T) (f : T → Bool) : ParserF T :=
  bindP p (fun t => if f t then pureP t else failP)

/-- `parser/combinator.go` `Seq`: left-to-right sequencing into a list. -/
def seqF {T : Type} : List (ParserF T) → ParserF (List T)
  | [] => pureP []
  | p :: ps => bindP p (fun t => bindP (seqF ps) (fun ts => pureP (t :: ts)))

/-- `parser/combinator.go` `Between`: `p`, `q`, `r`; keeps `q`'s value. -/
def betweenP {T U V : Type} (p : ParserF T) (q : ParserF U) (r : ParserF V) : ParserF U :=
  bindP p (fun _ => bindP q (fun t => bindP r (fun _ => pureP t)))

/-- `parser/combinator.go` `Lazy`: defers construction to parse time. -/
def lazyP {T : Type} (f : Unit → ParserF T) : ParserF T := fun s => f () s

/-- `parser/basic.go` `Space`: a single ' ', '\t' or '\n'. -/
def spaceP : ParserF Nat := satisfyP (fun r => r == 32 || r == 9 || r == 10)

/-- UTF-8 encoding of one rune, as Go's `string(r)` produces for a single
rune (invalid code points' replacement-character handling is not
modelled; every rune produced by this library's `Satisfy` is a byte
value `< 256`, for which this is exact). -/
def encodeRune (r : Nat) : Bytes :=
  if r < 128 then [r]
  else if r < 2048 then [192 + r / 64, 128 + r % 64]
  else if r < 65536 then [224 + r / 4096, 128 + (r / 64) % 64, 128 + r % 64]
  else [240 + r / 262144, 128 + (r / 4096) % 64, 128 + (r / 64) % 64, 128 + r % 64]

/-- Go's `string(rs)` for a rune slice: concatenation of the runes'
UTF-8 encodings. -/
def runesToStr (rs : List Nat) : Bytes := rs.foldr (fun r acc => encodeRune r ++ acc) []

/-- `parser/basic.go` `Spaces`: zero or more whitespace characters,
converted to a string. -/
def spacesF (fuel : Nat) : ParserF Bytes := fmapP (zeroOrMoreF fuel spaceP) runesToStr

/-- `parser/combinator.go` `TrimLeft`. -/
def trimLeftF {T : Type} (fuel : Nat) (p : ParserF T) : ParserF T :=
  omitLeftP (spacesF fuel) p

/-- `parser/combinator.go` `TrimRight`. -/
def trimRightF {T : Type} (fuel : Nat) (p : ParserF T) : ParserF T :=
  omitRightP p (spacesF fuel)

/-- `parser/combinator.go` `Trim`: `TrimLeft (TrimRight p)`. -/
def trimF {T : Type} (fuel : Nat) (p : ParserF T) : ParserF T :=
  trimLeftF fuel (trimRightF fuel p)

/-- `parser/basic.go` `Symbol`: a literal surrounded by optional whitespace. -/
def symbolF (fuel : Nat) (l : Bytes) : ParserF Bytes := trimF fuel (strP l)

/-- `parser/basic.go` `Digit`: one of '0'..'9'. -/
def digitP : ParserF Nat := satisfyP (fun r => 48 ≤ r && r ≤ 57)

/-- `parser/basic.go` `Digits`: one or more digits, as a string. -/
def digitsF (fuel : Nat) : ParserF Bytes := fmapP (oneOrMoreF fuel digitP) runesToStr

/-- `parser/basic.go` `Alpha`: one latin letter. -/
def alphaP : ParserF Nat :=
  satisfyP (fun r => (97 ≤ r && r ≤ 122) || (65 ≤ r && r ≤ 90))

/-- `parser/basic.go` `Alphas`: one or more letters, as a string. -/
def alphasF (fuel : Nat) : ParserF Bytes := fmapP (oneOrMoreF fuel alphaP) runesToStr

/-- `parser/basic.go` `Sign`: optional '-' or '+', defaulting to '+'. -/
def signP : ParserF Nat :=
  bindP (zeroOrOneP (orElseP [charP 45, charP 43])) (fun r =>
    match r with
    | none => pureP 43
    | some c => pureP c)

/-- Decimal value of a digit string, as computed by `strconv.ParseInt`
on the all-digit strings produced by `Digits`. -/
def digitsToNat (ds : Bytes) : Nat := ds.foldl (fun a d => a * 10 + (d - 48)) 0

/-- `strconv.ParseInt(ds, 10, 64)` with the error ignored, as in
`IntegerWithoutSign`: the decimal value, saturated at `2^63 - 1` on
overflow (Go returns `MaxInt64` together with the discarded range error). -/
def parseIntClamp (ds : Bytes) : Int :=
  let v := digitsToNat ds
  if v ≤ 2 ^ 63 - 1 then (v : Int) else ((2 ^ 63 - 1 : Nat) : Int)

/-- `parser/basic.go` `IntegerWithoutSign`. -/
def integerWithoutSignF (fuel : Nat) : ParserF Int :=
  fmapP (digitsF fuel) parseIntClamp

/-- `parser/basic.go` `Integer`: sign applied to the digits' value. -/
def integerF (fuel : Nat) : ParserF Int :=
  bindP signP (fun sign =>
    fmapP (integerWithoutSignF fuel) (fun i => if sign = 45 then -i else i))

/-- `strconv.ParseFloat` on the `digits.digits` strings produced by
`FloatWithoutSign`, abstracted to the exact decimal rational; the
rounding to the nearest IEEE-754 double is not modelled. -/
def parseFloatQ (s : Bytes) : ℚ :=
  let ip := s.takeWhile (fun b => b ≠ 46)
  let fp := (s.dropWhile (fun b => b ≠ 46)).drop 1
  (digitsToNat ip : ℚ) + (digitsToNat fp : ℚ) / ((10 : ℚ) ^ fp.length)

/-- `parser/basic.go` `FloatWithoutSign`: digits, '.', digits, joined
(`strings.Join(strs, "")`) and parsed. -/
def floatWithoutSignF (fuel : Nat) : ParserF ℚ :=
  fmapP (seqF [digitsF fuel, fmapP (charP 46) encodeRune, digitsF fuel])
    (fun strs => parseFloatQ (strs.foldr (fun a b => a ++ b) []))

/-- `parser/basic.go` `Float`: sign applied to the unsigned float. -/
def floatF (fuel : Nat) : ParserF ℚ :=
  bindP signP (fun sign =>
    fmapP (floatWithoutSignF fuel) (fun f => if sign = 45 then -f else f))

/-- The character-copying loop of `parser/basic.go` `String`: walks the
bytes after the opening quote carrying the `escaped` flag and the
accumulated contents `b`; yields the contents and the text after the
closing quote, or `none` when the input ends first. -/
def stringScan : Bytes → Bool → Bytes → Option (Bytes × Bytes)
  | [], _, _ => none
  | c :: rest, escaped, b =>
    if escaped then stringScan rest false (b ++ [c])
    else if c = 92 then stringScan rest true b
    else if c = 34 then some (b, rest)
    else stringScan rest false (b ++ [c])

/-- `parser/basic.go` `String`: a double-quoted string; `\` marks the
following character as literal; fails without a leading quote or when no
unescaped closing quote is found. -/
def stringP : ParserF Bytes := fun s =>
  match s with
  | [] => .fail
  | c :: rest =>
    if c = 34 then
      match stringScan rest false [] with
      | some (b, r) => .ok b r
      | none => .fail
    else .fail

/-- `json/ast.go`: the JSON value union.  `JsonInt` carries the Go
`int64` as `Int`, `JsonFloat`'s `float64` is abstracted to the exact
decimal rational, `JsonObject`'s `map[string]Json` is modelled as an
assoc list in insertion order with last write winning. -/
inductive Json : Type
  | null : Json
  | bool (b : Bool) : Json
  | int (i : Int) : Json
  | float (q : ℚ) : Json
  | str (s : Bytes) : Json
  | arr (elems : List Json) : Json
  | obj (fields : List (Bytes × Json)) : Json

/-- Go map write `obj[k] = v` on the assoc-list model: overwrite the
existing binding in place, else append. -/
def insertPair : List (Bytes × Json) → Bytes → Json → List (Bytes × Json)
  | [], k, v => [(k, v)]
  | (k', v') :: rest, k, v =>
    if k' = k then (k', v) :: rest else (k', v') :: insertPair rest k v

/-- The Go type assertion `tuple[0].(JsonString).Val` used by `JPair`
(always applied to a `JString` result). -/
def jsonStrVal : Json → Bytes
  | .str s => s
  | _ => []

/-- `json/parser.go` `JNull`. -/
def jNullF (fuel : Nat) : ParserF Json :=
  fmapP (symbolF fuel (mkStr "null")) (fun _ => .null)

/-- `json/parser.go` `JBool`. -/
def jBoolF (fuel : Nat) : ParserF Json :=
  fmapP (orElseP [symbolF fuel (mkStr "true"), symbolF fuel (mkStr "false")])
    (fun s => .bool (s = mkStr "true"))

/-- `json/parser.go` `JInt`. -/
def jIntF (fuel : Nat) : ParserF Json :=
  trimF fuel (fmapP (integerF fuel) Json.int)

/-- `json/parser.go` `JFloat`. -/
def jFloatF (fuel : Nat) : ParserF Json :=
  trimF fuel (fmapP (floatF fuel) Json.float)

/-- `json/parser.go` `JString`. -/
def jStringF (fuel : Nat) : ParserF Json :=
  trimF fuel (fmapP stringP Json.str)

/-- `json/parser.go` `JVal`: tries, in order, string, float, integer,
boolean, null, array, object.  The `Lazy`-deferred recursive entries
(`JArray`, `JObject`, and `JObject`'s `JPair`) are rendered as the
fuel-indexed recursive call — `Lazy` defers the self-reference to parse
time, which is exactly when the fuel is consumed — and their bodies are
the direct translations of the Go `JArray`, `JPair` and `JObject`. -/
def jValF : Nat → ParserF Json
  | 0 => fun _ => .div
  | n + 1 =>
    let jArr : ParserF Json :=
      fmapP
        (betweenP (trimF (n + 1) (charP 91))
          (sepByF (n + 1) (jValF n) (trimF (n + 1) (charP 44)))
          (trimF (n + 1) (charP 93)))
        Json.arr
    let jPair : ParserF (Bytes × Json) :=
      fmapP
        (seqF [jStringF (n + 1),
               trimF (n + 1) (fmapP (charP 58) (fun _ => Json.str (mkStr ":"))),
               jValF n])
        (fun t => (jsonStrVal (t.getD 0 .null), t.getD 2 .null))
    let jObj : ParserF Json :=
      fmapP
        (betweenP (trimF (n + 1) (charP 123))
          (sepByF (n + 1) jPair (trimF (n + 1) (charP 44)))
          (trimF (n + 1) (charP 125)))
        (fun pairs => .obj (pairs.foldl (fun m kv => insertPair m kv.1 kv.2) []))
    orElseP [jStringF (n + 1), jFloatF (n + 1), jIntF (n + 1),
             jBoolF (n + 1), jNullF (n + 1), jArr, jObj]

/-- The ASCII bytes treated as space by `strings.TrimSpace`
('\t' '\n' '\v' '\f' '\r' ' '); the non-ASCII Unicode space code points
are not modelled (all INI inputs considered here are ASCII). -/
def isSpaceByte (b : Nat) : Bool :=
  b = 32 || b = 9 || b = 10 || b = 11 || b = 12 || b = 13

/-- `strings.TrimSpace` on ASCII input. -/
def trimSpaceStr (s : Bytes) : Bytes :=
  ((s.dropWhile isSpaceByte).reverse.dropWhile isSpaceByte).reverse

/-- `strings.Split(s, sep)` for a one-byte separator: `Split("", _) = [""]`,
and each separator byte opens a new (possibly empty) field. -/
def splitOnByte (c : Nat) : Bytes → List Bytes
  | [] => [[]]
  | b :: rest =>
    let r := splitOnByte c rest
    if b = c then [] :: r else (b :: r.headD []) :: r.tail

/-- `parser/combinator.go` `ToString` at `T = []rune`: optionally trims,
then converts the rune slice to a string. -/
def toStringRunes (fuel : Nat) (p : ParserF (List Nat)) (shouldTrim : Bool) : ParserF Bytes :=
  fmapP (if shouldTrim then trimF fuel p else p) runesToStr

/-- `parser/combinator.go` `ToString` at `T = rune`. -/
def toStringRune (fuel : Nat) (p : ParserF Nat) (shouldTrim : Bool) : ParserF Bytes :=
  fmapP (if shouldTrim then trimF fuel p else p) encodeRune

/-- `ini/ast.go` `Entry`. -/
structure Entry : Type where
  Key : Bytes
  Value : Bytes
  deriving DecidableEq, Repr

/-- `ini/ast.go` `Section`. -/
structure Section : Type where
  Name : Bytes
  Entries : List Entry
  deriving DecidableEq, Repr

/-- `ini/ast.go` `Ini`. -/
structure Ini : Type where
  Sections : List Section
  deriving DecidableEq, Repr

/-- `ISectionName` as in the combinator-grammar INI file (the variant
whose `IniParse` scans lines and uses `IEntry`): `[`, the `]`-free run
converted via `ToString(…, true)`, `]`, each bracket trimmed. -/
def iSectionNameA (fuel : Nat) : ParserF Bytes :=
  betweenP (trimF fuel (charP 91))
    (toStringRunes fuel (zeroOrMoreF fuel (NotChar 93)) true)
    (trimF fuel (charP 93))

/-- `IEntry`: key (no '='), '=', value (no newline), assembled with
`strings.TrimSpace` on key and value. -/
def iEntryF (fuel : Nat) : ParserF Entry :=
  fmapP
    (seqF [toStringRunes fuel (oneOrMoreF fuel (NotChar 61)) true,
           toStringRune fuel (charP 61) true,
           toStringRunes fuel (oneOrMoreF fuel (NotChar 10)) false])
    (fun strs => ⟨trimSpaceStr (strs.getD 0 []), trimSpaceStr (strs.getD 2 [])⟩)

/-- The loop of the line-scanning `IniParse` that tries `IEntry` on
non-section lines (the variant without comment handling): blank lines
are skipped; a failing `IEntry` breaks out of the loop (the lines after
it are dropped and the sections so far are still returned as `Just`);
appending to `sections[len(sections)-1]` with no section yet is an
out-of-range index — a Go panic, modelled as `none`.  The parser-level
fuel is `length + 1`, enough for every (strictly consuming) repetition
inside the per-line parsers, so `div` is unreachable here. -/
def iniLoopA : List Bytes → List Section → Option (List Section)
  | [], secs => some secs
  | l :: ls, secs =>
    let s := trimSpaceStr l
    if s = [] then iniLoopA ls secs
    else
      match iSectionNameA (s.length + 1) s with
      | .ok name _ => iniLoopA ls (secs ++ [⟨name, []⟩])
      | _ =>
        match iEntryF (s.length + 1) s with
        | .ok e _ =>
          match secs.getLast? with
          | none => none
          | some last => iniLoopA ls (secs.dropLast ++ [⟨last.Name, last.Entries ++ [e]⟩])
        | _ => some secs

/-- The line-scanning `IniParse` built on `IEntry` (the variant without
comment handling): splits on newlines, folds `iniLoopA`, and returns
`Just(Ini{sections}, "")`; `none` is the Go panic path, a returned
`Nothing` is impossible. -/
def IniParseA (input : Bytes) : Option (Ini × Bytes) :=
  (iniLoopA (splitOnByte 10 input) []).map (fun secs => (⟨secs⟩, []))

/-- `ISectionName` as in the comment-skipping INI file: the bracket
contents are `TrimSpace`d and must be non-empty (`Fail` on empty). -/
def iSectionNameB (fuel : Nat) : ParserF Bytes :=
  betweenP (trimF fuel (charP 91))
    (bindP (zeroOrMoreF fuel (NotChar 93)) (fun rs =>
      let t := trimSpaceStr (runesToStr rs)
      if t = [] then failP else pureP t))
    (trimF fuel (charP 93))

/-- The loop of the comment-skipping `IniParse`: blank lines and lines
starting with ';' or '#' are skipped; a non-section line is
`strings.Split` on '='; `t[1]` on a line without '=' and
`sections[len(sections)-1]` with no open section are out-of-range
indexes — Go panics, modelled as `none`. -/
def iniLoopB : List Bytes → List Section → Option (List Section)
  | [], secs => some secs
  | l :: ls, secs =>
    let s := trimSpaceStr l
    if s = [] || s.headD 0 = 59 || s.headD 0 = 35 then iniLoopB ls secs
    else
      match iSectionNameB (s.length + 1) s with
      | .ok name _ => iniLoopB ls (secs ++ [⟨name, []⟩])
      | _ =>
        let t := splitOnByte 61 s
        match t.get? 1 with
        | none => none
        | some v1 =>
          match secs.getLast? with
          | none => none
          | some last =>
            iniLoopB ls
              (secs.dropLast ++
               [⟨last.Name, last.Entries ++ [⟨trimSpaceStr (t.headD []), trimSpaceStr v1⟩]⟩])

/-- The comment-skipping, '='-splitting `IniParse`: splits on newlines,
folds `iniLoopB`, returns `Just(Ini{sections}, "")`; `none` is the Go
panic path, a returned `Nothing` is impossible. -/
def IniParseB (input : Bytes) : Option (Ini × Bytes) :=
  (iniLoopB (splitOnByte 10 input) []).map (fun secs => (⟨secs⟩, []))

/-- A parser whose every success leaves a remaining input that is a
suffix of the input it was given. -/
def Suffixy {T : Type} (p : ParserF T) : Prop :=
  ∀ s v r, p s = PR.ok v r → r.IsSuffix s

/-- Acceptance relation of the quoted-string body: `StrAccept l cs r`
says that scanning `l` (the text after the opening quote) finds an
unescaped closing quote, producing contents `cs` and remaining text `r`:
an unescaped `"` closes with empty contents, `\c` contributes the
literal `c`, and any other non-quote non-backslash byte contributes
itself. -/
inductive StrAccept : Bytes → Bytes → Bytes → Prop
  | close (r : Bytes) : StrAccept (34 :: r) [] r
  | esc (c : Nat) (l cs r : Bytes) : StrAccept l cs r → StrAccept (92 :: c :: l) (c :: cs) r
  | plain (c : Nat) (l cs r : Bytes) (h34 : c ≠ 34) (h92 : c ≠ 92) :
      StrAccept l cs r → StrAccept (c :: l) (c :: cs) r

/-- `ZeroOrMore(Pure 0)` run on the empty input diverges: no fuel bound
makes it return (each round succeeds consuming nothing, so the Go
recursion never terminates). -/
def zeroOrMorePureDiverges : Prop :=
  ∀ fuel, zeroOrMoreF fuel (pureP (0 : Nat)) [] = PR.div

/-- ZeroOrMore never returns `Nothing`: its only outcomes are a success
or divergence, whatever the fuel. -/
theorem zeroOrMoreF_ne_fail {T : Type} :
    ∀ (fuel : Nat) (p : ParserF T) (s : Bytes), zeroOrMoreF fuel p s ≠ PR.fail := by
  intro fuel p
  induction fuel with
  | zero => intro s; simp [zeroOrMoreF]
  | succ n ih =>
    intro s
    simp only [zeroOrMoreF]
    cases hp : p s with
    | div => simp
    | fail => simp
    | ok t s' =>
      dsimp only
      cases hz : zeroOrMoreF n p s' with
      | div => simp [hz]
      | fail => exact absurd hz (ih s')
      | ok ts s'' => simp [hz]

/-- ZeroOrMore is greedy: when it returns a success, one more
application of `p` at the remaining input fails. -/
theorem zeroOrMoreF_ok_stop {T : Type} :
    ∀ (fuel : Nat) (p : ParserF T) (s : Bytes) (ts : List T) (r : Bytes),
    zeroOrMoreF fuel p s = PR.ok ts r → p r = PR.fail := by
  intro fuel p
  induction fuel with
  | zero => intro s ts r h; simp [zeroOrMoreF] at h
  | succ n ih =>
    intro s ts r h
    simp only [zeroOrMoreF] at h
    cases hp : p s with
    | div => rw [hp] at h; simp at h
    | fail =>
      rw [hp] at h
      dsimp only at h
      simp only [PR.ok.injEq] at h
      rw [← h.2]
      exact hp
    | ok t s' =>
      rw [hp] at h
      dsimp only at h
      cases hz : zeroOrMoreF n p s' with
      | div => rw [hz] at h; simp at h
      | fail => rw [hz] at h; simp at h
      | ok ts' s'' =>
        rw [hz] at h
        dsimp only at h
        simp only [PR.ok.injEq] at h
        rw [← h.2]
        exact ih s' ts' s'' hz

/-- ZeroOrMore stops immediately on a failing first application. -/
theorem zeroOrMoreF_at_fail {T : Type} (fuel : Nat) (p : ParserF T) (s : Bytes)
    (h : p s = PR.fail) : zeroOrMoreF (fuel + 1) p s = PR.ok [] s := by
  simp [zeroOrMoreF, h]

/-- ZeroOrMore of a divergence-free parser that consumes on every
success terminates once the fuel exceeds the input length. -/
theorem zeroOrMoreF_total {T : Type} :
    ∀ (fuel : Nat) (p : ParserF T) (s : Bytes),
    (∀ u, p u ≠ PR.div) → (∀ u t r, p u = PR.ok t r → r.length < u.length) →
    s.length < fuel → ∃ ts r, zeroOrMoreF fuel p s = PR.ok ts r := by
  intro fuel p
  induction fuel with
  | zero => intro s _ _ h; omega
  | succ n ih =>
    intro s hdiv hcon hlen
    simp only [zeroOrMoreF]
    cases hp : p s with
    | div => exact absurd hp (hdiv s)
    | fail => exact ⟨[], s, rfl⟩
    | ok t s' =>
      have hlt : s'.length < s.length := hcon s t s' hp
      obtain ⟨ts, r, hts⟩ := ih s' hdiv hcon (by omega)
      exact ⟨t :: ts, r, by dsimp only; rw [hts]⟩

/-- Satisfy never diverges. -/
theorem satisfyP_ne_div (f : Nat → Bool) (s : Bytes) : satisfyP f s ≠ PR.div := by
  cases s with
  | nil => simp [satisfyP]
  | cons b rest =>
    simp only [satisfyP]
    by_cases hb : f b <;> simp [hb]

/-- Satisfy consumes exactly one byte on success. -/
theorem satisfyP_consumes (f : Nat → Bool) (s : Bytes) (t : Nat) (r : Bytes)
    (h : satisfyP f s = PR.ok t r) : r.length < s.length := by
  cases s with
  | nil => simp [satisfyP] at h
  | cons b rest =>
    simp only [satisfyP] at h
    by_cases hb : f b
    · rw [if_pos hb] at h
      simp only [PR.ok.injEq] at h
      rw [← h.2]
      simp
    · rw [if_neg hb] at h; cases h

/-- Spaces at fuel zero diverges. -/
theorem spacesF_zero (s : Bytes) : spacesF 0 s = PR.div := rfl

/-- Spaces never returns `Nothing`. -/
theorem spacesF_ne_fail (fuel : Nat) (s : Bytes) : spacesF fuel s ≠ PR.fail := by
  simp only [spacesF, fmapP]
  cases h : zeroOrMoreF fuel spaceP s with
  | div => simp
  | fail => exact absurd h (zeroOrMoreF_ne_fail fuel spaceP s)
  | ok ts r => simp

/-- After a successful Spaces run the next byte is not whitespace. -/
theorem spacesF_ok_stop (fuel : Nat) (s w r : Bytes)
    (h : spacesF fuel s = PR.ok w r) : spaceP r = PR.fail := by
  simp only [spacesF, fmapP] at h
  cases hz : zeroOrMoreF fuel spaceP s with
  | div => rw [hz] at h; cases h
  | fail => exact absurd hz (zeroOrMoreF_ne_fail fuel spaceP s)
  | ok ts r' =>
    rw [hz] at h
    simp only [PR.ok.injEq] at h
    rw [← h.2]
    exact zeroOrMoreF_ok_stop fuel spaceP s ts r' hz

/-- Spaces at a non-whitespace byte succeeds consuming nothing. -/
theorem spacesF_succ_at_stop (fuel : Nat) (s : Bytes) (h : spaceP s = PR.fail) :
    spacesF (fuel + 1) s = PR.ok [] s := by
  simp [spacesF, fmapP, zeroOrMoreF, h, runesToStr]

/-- Unfolding of `Trim`: leading Spaces, the wrapped parser, trailing
Spaces, keeping the parser's value. -/
theorem trimF_eq {T : Type} (fuel : Nat) (p : ParserF T) (s : Bytes) :
    trimF fuel p s =
      match spacesF fuel s with
      | .div => .div
      | .fail => .fail
      | .ok _ s₁ =>
        match p s₁ with
        | .div => .div
        | .fail => .fail
        | .ok t s₂ =>
          match spacesF fuel s₂ with
          | .div => .div
          | .fail => .fail
          | .ok _ s₃ => .ok t s₃ := by
  simp only [trimF, trimLeftF, trimRightF, omitLeftP, omitRightP, bindP, pureP]
  cases spacesF fuel s with
  | div => rfl
  | fail => rfl
  | ok w s₁ =>
    dsimp only
    cases p s₁ with
    | div => rfl
    | fail => rfl
    | ok t s₂ =>
      dsimp only
      cases spacesF fuel s₂ with
      | div => rfl
      | fail => rfl
      | ok w₂ s₃ => rfl

/-- C4 counterexample: `ZeroOrMore(Pure 0)` applied to the empty input
never returns: at every fuel bound the run is still divergent, so it is
not true that `zero_or_more(p)` returns a present result for every
parser `p` — the Go recursion simply never terminates here. -/
theorem zeroOrMore_pure_diverges : zeroOrMorePureDiverges := by
  intro fuel
  induction fuel with
  | zero => rfl
  | succ n ih => simp [zeroOrMoreF, pureP, ih]

/-- C4 (amended): `zero_or_more(p)` never returns absent, whatever `p`
and the input; when `p` fails at `s` it returns the empty sequence and
`s` unchanged; and for every `p` that returns on all inputs and consumes
input on every success, it returns a present result (once the fuel bound
exceeds the input length).  For a parser that succeeds without consuming
(such as `pure`) the recursion diverges instead of returning, which is
the one carve-out from "always returns a present result". -/
theorem zeroOrMore_total_amended {T : Type} :
    ∀ (p : ParserF T) (s : Bytes) (fuel : Nat),
    (zeroOrMoreF fuel p s ≠ PR.fail)
    ∧ (p s = PR.fail → 1 ≤ fuel → zeroOrMoreF fuel p s = PR.ok [] s)
    ∧ ((∀ u, p u ≠ PR.div) → (∀ u t r, p u = PR.ok t r → r.length < u.length) →
        s.length < fuel → ∃ ts r, zeroOrMoreF fuel p s = PR.ok ts r) := by
  intro p s fuel
  refine ⟨zeroOrMoreF_ne_fail fuel p s, ?_, zeroOrMoreF_total fuel p s⟩
  intro hf hfuel
  obtain ⟨k, rfl⟩ : ∃ k, fuel = k + 1 := ⟨fuel - 1, by omega⟩
  exact zeroOrMoreF_at_fail k p s hf

/-- C4 witness: the amended theorem at `Char 'a'`, once on "b" (failing
first application, empty result) and once on "aa" (a consuming,
divergence-free parser with enough fuel). -/
theorem zeroOrMore_total_amended_witness :
    zeroOrMoreF 1 (charP 97) (mkStr "b") = PR.ok [] (mkStr "b")
    ∧ ∃ ts r, zeroOrMoreF 3 (charP 97) (mkStr "aa") = PR.ok ts r := by
  constructor
  · exact (zeroOrMore_total_amended (charP 97) (mkStr "b") 1).2.1 (by decide) (by decide)
  · exact (zeroOrMore_total_amended (charP 97) (mkStr "aa") 3).2.2
      (fun u => satisfyP_ne_div _ u) (fun u t r h => satisfyP_consumes _ u t r h) (by decide)

/-- C5: `one_or_more(p)` returns absent exactly when the first
application of `p` returns absent: a failing first `p` is the only
source of `Nothing` (the tail runs `ZeroOrMore`, which never fails, and
a diverging tail is not a returned absence). -/
theorem oneOrMore_fail_iff {T : Type} :
    ∀ (p : ParserF T) (s : Bytes) (fuel : Nat),
    oneOrMoreF fuel p s = PR.fail ↔ p s = PR.fail := by
  intro p s fuel
  constructor
  · intro h
    simp only [oneOrMoreF] at h
    cases hp : p s with
    | fail => rfl
    | div => rw [hp] at h; dsimp only at h; cases h
    | ok t s' =>
      rw [hp] at h
      dsimp only at h
      cases hz : zeroOrMoreF fuel p s' with
      | fail => exact absurd hz (zeroOrMoreF_ne_fail fuel p s')
      | div => rw [hz] at h; dsimp only at h; cases h
      | ok ts s'' => rw [hz] at h; dsimp only at h; cases h
  · intro h
    simp [oneOrMoreF, h]

/-- C9: trimming is idempotent: `Trim(Trim p)` returns exactly the same
result as `Trim p` — same success or failure, same value, same remaining
input — on every input, for every parser and every fuel bound. -/
theorem trim_idempotent {T : Type} :
    ∀ (p : ParserF T) (fuel : Nat) (s : Bytes),
    trimF fuel (trimF fuel p) s = trimF fuel p s := by
  intro p fuel s
  simp only [trimF_eq]
  cases hs : spacesF fuel s with
  | div => rfl
  | fail => rfl
  | ok w s₁ =>
    obtain ⟨k, rfl⟩ : ∃ k, fuel = k + 1 := by
      cases fuel with
      | zero => rw [spacesF_zero] at hs; cases hs
      | succ k => exact ⟨k, rfl⟩
    have hstop : spaceP s₁ = PR.fail := spacesF_ok_stop _ _ _ _ hs
    have hsp1 : spacesF (k + 1) s₁ = PR.ok [] s₁ := spacesF_succ_at_stop k s₁ hstop
    dsimp only
    rw [hsp1]
    dsimp only
    cases hp : p s₁ with
    | div => rfl
    | fail => rfl
    | ok t s₂ =>
      dsimp only
      cases hs2 : spacesF (k + 1) s₂ with
      | div => rfl
      | fail => rfl
      | ok w₂ s₃ =>
        dsimp only
        have hstop3 : spaceP s₃ = PR.fail := spacesF_ok_stop _ _ _ _ hs2
        rw [spacesF_succ_at_stop k s₃ hstop3]

/-- C1 counterexample: `SepBy(Str "a", Char ',')` on "a," — one element
match followed by a separator match with no following element — does not
return absent as the claim states: it succeeds with the single element,
leaving the trailing separator "," unconsumed. -/
theorem sepBy_trailing_sep_present :
    sepByF 5 (strP (mkStr "a")) (charP 44) (mkStr "a,") = PR.ok [mkStr "a"] (mkStr ",") := by
  decide

/-- C1 (amended): `sep_by(p, sep)` never returns absent; on an input
where `p` matches and the following separator-then-element step fails,
it succeeds with just the matched elements and leaves the trailing
separator unconsumed (the separator–element step after an element is
matched atomically, so a separator with nothing after it merely stops
the repetition before the separator); in general, after any successful
non-empty `sep_by` parse, separator-then-element fails at the remaining
input. -/
theorem sepBy_no_trailing_sep_amended {T U : Type} :
    ∀ (p : ParserF T) (sep : ParserF U) (s s₁ : Bytes) (v : T) (ts : List T) (r : Bytes)
      (fuel : Nat),
    (sepByF fuel p sep s ≠ PR.fail)
    ∧ (1 ≤ fuel → p s = PR.ok v s₁ → bindP sep (fun _ => p) s₁ = PR.fail →
        sepByF fuel p sep s = PR.ok [v] s₁)
    ∧ (sepByF fuel p sep s = PR.ok (v :: ts) r → bindP sep (fun _ => p) r = PR.fail) := by
  intro p sep s s₁ v ts r fuel
  refine ⟨?_, ?_, ?_⟩
  · simp only [sepByF, orElseP]
    cases h : bindP p
        (fun first => fmapP (zeroOrMoreF fuel (bindP sep fun _ => p))
          (fun rest => first :: rest)) s with
    | div => simp
    | ok w u => simp
    | fail => simp [pureP]
  · intro hfuel hp hsep
    obtain ⟨k, rfl⟩ : ∃ k, fuel = k + 1 := ⟨fuel - 1, by omega⟩
    simp only [sepByF, orElseP, bindP, hp, fmapP, zeroOrMoreF_at_fail k _ _ hsep]
  · intro h
    simp only [sepByF, orElseP, pureP] at h
    cases halt : bindP p
        (fun first => fmapP (zeroOrMoreF fuel (bindP sep fun _ => p))
          (fun rest => first :: rest)) s with
    | div => rw [halt] at h; dsimp only at h; cases h
    | fail => rw [halt] at h; dsimp only at h; simp at h
    | ok w u =>
      rw [halt] at h
      dsimp only at h
      simp only [PR.ok.injEq] at h
      obtain ⟨hw, hu⟩ := h
      subst hw
      subst hu
      simp only [bindP] at halt
      cases hp : p s with
      | div => rw [hp] at halt; cases halt
      | fail => rw [hp] at halt; cases halt
      | ok a s₂ =>
        rw [hp] at halt
        dsimp only at halt
        simp only [fmapP] at halt
        cases hz : zeroOrMoreF fuel (bindP sep fun _ => p) s₂ with
        | div => rw [hz] at halt; cases halt
        | fail => rw [hz] at halt; cases halt
        | ok ts' r' =>
          rw [hz] at halt
          dsimp only at halt
          simp only [PR.ok.injEq] at halt
          obtain ⟨-, hr⟩ := halt
          subst hr
          exact zeroOrMoreF_ok_stop fuel _ s₂ _ _ hz

/-- C1 witness: the amended theorem applied to `SepBy(Str "b", Char ',')`
on "b,": one element, the trailing separator left unconsumed. -/
theorem sepBy_no_trailing_sep_amended_witness :
    sepByF 3 (strP (mkStr "b")) (charP 44) (mkStr "b,") = PR.ok [mkStr "b"] (mkStr ",") :=
  (sepBy_no_trailing_sep_amended (strP (mkStr "b")) (charP 44) (mkStr "b,") (mkStr ",")
    (mkStr "b") [] [] 3).2.1 (by decide) (by decide) (by decide)

/-- C6: `or_else` tries each parser against the original input in
order: it returns absent exactly when every alternative returns absent;
a failing head is skipped, the same original input moving to the next
alternative; a succeeding head's result is returned as is — in
particular, with two alternatives that both succeed, the first one's
result is returned. -/
theorem orElse_first_success {T : Type} :
    ∀ (ps : List (ParserF T)) (s : Bytes) (p q : ParserF T) (v : T) (r : Bytes),
    (orElseP ps s = PR.fail ↔ ∀ p' ∈ ps, p' s = PR.fail)
    ∧ (p s = PR.fail → orElseP (p :: ps) s = orElseP ps s)
    ∧ (p s = PR.ok v r → orElseP (p :: ps) s = PR.ok v r)
    ∧ (∀ (w : T) (u : Bytes), p s = PR.ok v r → q s = PR.ok w u →
        orElseP [p, q] s = PR.ok v r) := by
  intro ps s p q v r
  refine ⟨?_, ?_, ?_, ?_⟩
  · induction ps with
    | nil => simp [orElseP]
    | cons p' rest ih =>
      simp only [orElseP]
      cases hp' : p' s with
      | ok a b => simp [hp', List.forall_mem_cons]
      | div => simp [hp', List.forall_mem_cons]
      | fail => simp [hp', List.forall_mem_cons, ih]
  · intro h; simp [orElseP, h]
  · intro h; simp [orElseP, h]
  · intro w u hp hq; simp [orElseP, hp]

/-- C6 witness: both `Str "a"` and `Str "ab"` succeed on "ab";
`or_else` returns the first one's result. -/
theorem orElse_first_success_witness :
    orElseP [strP (mkStr "a"), strP (mkStr "ab")] (mkStr "ab") = PR.ok (mkStr "a") (mkStr "b") :=
  (orElse_first_success [strP (mkStr "ab")] (mkStr "ab") (strP (mkStr "a")) (strP (mkStr "ab"))
    (mkStr "a") (mkStr "b")).2.2.2 (mkStr "ab") [] (by decide) (by decide)

/-- C10: `Satisfy` works on bytes, not characters: on empty input it
fails; on `b :: rest` it applies the predicate to the numeric value of
the first byte `b` and, on success, consumes exactly that byte.  The
two closing conjuncts run it on the two-byte UTF-8 encoding `[195, 169]`
of 'é' (code point 233): a predicate looking for the rune 'é' fails
(it is shown byte 195, never the decoded character), and a predicate
accepting byte 195 consumes one byte, leaving the dangling continuation
byte. -/
theorem satisfy_byte_level :
    ∀ (f : Nat → Bool) (b : Nat) (rest : Bytes),
    (satisfyP f [] = PR.fail)
    ∧ (f b = true → satisfyP f (b :: rest) = PR.ok b rest)
    ∧ (f b = false → satisfyP f (b :: rest) = PR.fail)
    ∧ (satisfyP (fun c => c == 233) [195, 169] = PR.fail)
    ∧ (satisfyP (fun c => 192 ≤ c) [195, 169] = PR.ok 195 [169]) := by
  intro f b rest
  refine ⟨rfl, ?_, ?_, by decide, by decide⟩
  · intro h; simp [satisfyP, h]
  · intro h; simp [satisfyP, h]

/-- C10 witness: the byte-level success case at a concrete predicate and
input. -/
theorem satisfy_byte_level_witness :
    satisfyP (fun c => c == 97) [97, 98] = PR.ok 97 [98] :=
  (satisfy_byte_level (fun c => c == 97) 97 [98]).2.1 (by decide)

/-- C3: the JSON top-level parser tries float before integer, so on
"3.14" it returns a present result whose value is Float(3.14) — the
exact decimal 157/50 in the rational model of the `float64` — with
empty remaining input, and not Int(3) with leftover ".14". -/
theorem jval_float_before_int :
    jValF 3 (mkStr "3.14") = PR.ok (Json.float (3.14 : ℚ)) []
    ∧ jValF 3 (mkStr "3.14") ≠ PR.ok (Json.int 3) (mkStr ".14") := by
  have hq : parseFloatQ (mkStr "3.14") = (3.14 : ℚ) := by
    have hm : mkStr "3.14" = [51, 46, 49, 52] := by decide
    rw [hm]
    norm_num [parseFloatQ, digitsToNat, List.takeWhile, List.dropWhile]
  have h1 : jValF 3 (mkStr "3.14") = PR.ok (Json.float (parseFloatQ (mkStr "3.14"))) [] := by
    rfl
  rw [hq] at h1
  refine ⟨h1, ?_⟩
  rw [h1]
  intro h
  simp only [PR.ok.injEq] at h
  exact Json.noConfusion h.1

/-- C2: on "[section]\nkeyvalue" — an entry line with no '=' — the
repo's own ini test expects `IniParse` to return absent, but neither
line-scanning implementation does: the `IEntry`-based variant breaks out
of its loop and still returns a present result (one section "section"
with no entries, remaining input ""), and the '='-splitting variant hits
the out-of-range index `t[1]`, a Go panic (modelled as `none`); an entry
line before any section ("key=value") likewise panics in both variants
via `sections[len(sections)-1]` instead of returning absent. -/
theorem iniParse_no_eq_line_eval :
    IniParseA (mkStr "[section]\nkeyvalue") = some (⟨[⟨mkStr "section", []⟩]⟩, [])
    ∧ IniParseB (mkStr "[section]\nkeyvalue") = none
    ∧ IniParseA (mkStr "key=value") = none
    ∧ IniParseB (mkStr "key=value") = none := by
  refine ⟨by decide, by decide, by decide, by decide⟩

/-- Pure leaves the input unchanged. -/
theorem suffixy_pure {T : Type} (v : T) : Suffixy (pureP v) := by
  intro s w r h
  simp only [pureP, PR.ok.injEq] at h
  rw [← h.2]

/-- Fail never succeeds, so the invariant is vacuous. -/
theorem suffixy_fail {T : Type} : Suffixy (failP (T := T)) := by
  intro s w r h
  simp [failP] at h

/-- Satisfy consumes one byte off the front. -/
theorem suffixy_satisfy (f : Nat → Bool) : Suffixy (satisfyP f) := by
  intro s w r h
  cases s with
  | nil => simp [satisfyP] at h
  | cons b rest =>
    simp only [satisfyP] at h
    by_cases hb : f b
    · rw [if_pos hb] at h
      simp only [PR.ok.injEq] at h
      rw [← h.2]
      exact List.suffix_cons b rest
    · rw [if_neg hb] at h; cases h

/-- Str drops its own length off the front. -/
theorem suffixy_str (l : Bytes) : Suffixy (strP l) := by
  intro s w r h
  simp only [strP] at h
  by_cases hp : l.isPrefixOf s
  · rw [if_pos hp] at h
    simp only [PR.ok.injEq] at h
    rw [← h.2]
    exact List.drop_suffix l.length s
  · rw [if_neg hp] at h; cases h

/-- The quoted-string scanning loop only ever walks forward. -/
theorem stringScan_suffix :
    ∀ (l : Bytes) (esc : Bool) (acc b r : Bytes),
    stringScan l esc acc = some (b, r) → r.IsSuffix l := by
  intro l
  induction l with
  | nil => intro esc acc b r h; simp [stringScan] at h
  | cons c rest ih =>
    intro esc acc b r h
    simp only [stringScan] at h
    by_cases hesc : esc = true
    · rw [if_pos hesc] at h
      exact (ih false (acc ++ [c]) b r h).trans (List.suffix_cons c rest)
    · rw [if_neg hesc] at h
      by_cases h92 : c = 92
      · rw [if_pos h92] at h
        exact (ih true acc b r h).trans (List.suffix_cons c rest)
      · rw [if_neg h92] at h
        by_cases h34 : c = 34
        · rw [if_pos h34] at h
          simp only [Option.some.injEq, Prod.mk.injEq] at h
          rw [← h.2]
          exact List.suffix_cons c rest
        · rw [if_neg h34] at h
          exact (ih false (acc ++ [c]) b r h).trans (List.suffix_cons c rest)

/-- String (the quoted-string parser) leaves a suffix behind. -/
theorem suffixy_string : Suffixy stringP := by
  intro s w r h
  cases s with
  | nil => simp [stringP] at h
  | cons c rest =>
    simp only [stringP] at h
    by_cases h34 : c = 34
    · rw [if_pos h34] at h
      cases hscan : stringScan rest false [] with
      | none => rw [hscan] at h; cases h
      | some p =>
        rw [hscan] at h
        cases p with
        | mk b r' =>
          dsimp only at h
          simp only [PR.ok.injEq] at h
          rw [← h.2]
          exact (stringScan_suffix rest false [] b r' hscan).trans (List.suffix_cons c rest)
    · rw [if_neg h34] at h; cases h

/-- Fmap keeps the wrapped parser's remaining input. -/
theorem suffixy_fmap {T U : Type} (p : ParserF T) (f : T → U) (hp : Suffixy p) :
    Suffixy (fmapP p f) := by
  intro s w r h
  simp only [fmapP] at h
  cases hps : p s with
  | div => rw [hps] at h; cases h
  | fail => rw [hps] at h; cases h
  | ok t r' =>
    rw [hps] at h
    dsimp only at h
    simp only [PR.ok.injEq] at h
    rw [← h.2]
    exact hp s t r' hps

/-- Bind composes the two parsers' suffix invariants. -/
theorem suffixy_bind {T U : Type} (p : ParserF T) (f : T → ParserF U)
    (hp : Suffixy p) (hf : ∀ v, Suffixy (f v)) : Suffixy (bindP p f) := by
  intro s w r h
  simp only [bindP] at h
  cases hps : p s with
  | div => rw [hps] at h; cases h
  | fail => rw [hps] at h; cases h
  | ok t r' =>
    rw [hps] at h
    dsimp only at h
    exact (hf t r' w r h).trans (hp s t r' hps)

/-- OrElse returns one of its alternatives' results, each run on the
original input. -/
theorem suffixy_orElse {T : Type} (ps : List (ParserF T))
    (hps : ∀ p ∈ ps, Suffixy p) : Suffixy (orElseP ps) := by
  induction ps with
  | nil => intro s w r h; simp [orElseP] at h
  | cons p rest ih =>
    intro s w r h
    simp only [orElseP] at h
    cases hp : p s with
    | div => rw [hp] at h; cases h
    | ok a b =>
      rw [hp] at h
      dsimp only at h
      simp only [PR.ok.injEq] at h
      rw [← h.2]
      exact hps p (List.mem_cons_self p rest) s a b hp
    | fail =>
      rw [hp] at h
      dsimp only at h
      exact ih (fun q hq => hps q (List.mem_cons_of_mem p hq)) s w r h

/-- ZeroOrMore chains the element parser's suffix steps. -/
theorem suffixy_zeroOrMore {T : Type} (fuel : Nat) (p : ParserF T) (hp : Suffixy p) :
    Suffixy (zeroOrMoreF fuel p) := by
  induction fuel with
  | zero => intro s w r h; simp [zeroOrMoreF] at h
  | succ n ih =>
    intro s w r h
    simp only [zeroOrMoreF] at h
    cases hps : p s with
    | div => rw [hps] at h; cases h
    | fail =>
      rw [hps] at h
      dsimp only at h
      simp only [PR.ok.injEq] at h
      rw [← h.2]
    | ok t s' =>
      rw [hps] at h
      dsimp only at h
      cases hz : zeroOrMoreF n p s' with
      | div => rw [hz] at h; cases h
      | fail => rw [hz] at h; cases h
      | ok ts s'' =>
        rw [hz] at h
        dsimp only at h
        simp only [PR.ok.injEq] at h
        rw [← h.2]
        exact (ih s' ts s'' hz).trans (hp s t s' hps)

/-- OneOrMore is the element parser once, then ZeroOrMore. -/
theorem suffixy_oneOrMore {T : Type} (fuel : Nat) (p : ParserF T) (hp : Suffixy p) :
    Suffixy (oneOrMoreF fuel p) := by
  intro s w r h
  simp only [oneOrMoreF] at h
  cases hps : p s with
  | div => rw [hps] at h; cases h
  | fail => rw [hps] at h; cases h
  | ok t s' =>
    rw [hps] at h
    dsimp only at h
    cases hz : zeroOrMoreF fuel p s' with
    | div => rw [hz] at h; cases h
    | fail => rw [hz] at h; cases h
    | ok ts s'' =>
      rw [hz] at h
      dsimp only at h
      simp only [PR.ok.injEq] at h
      rw [← h.2]
      exact (suffixy_zeroOrMore fuel p hp s' ts s'' hz).trans (hp s t s' hps)

/-- ZeroOrOne consumes what the wrapped parser consumed, or nothing. -/
theorem suffixy_zeroOrOne {T : Type} (p : ParserF T) (hp : Suffixy p) :
    Suffixy (zeroOrOneP p) := by
  intro s w r h
  simp only [zeroOrOneP] at h
  cases hps : p s with
  | div => rw [hps] at h; cases h
  | fail =>
    rw [hps] at h
    dsimp only at h
    simp only [PR.ok.injEq] at h
    rw [← h.2]
  | ok t r' =>
    rw [hps] at h
    dsimp only at h
    simp only [PR.ok.injEq] at h
    rw [← h.2]
    exact hp s t r' hps

/-- Seq chains its parsers' suffix invariants left to right. -/
theorem suffixy_seq {T : Type} (ps : List (ParserF T)) (hps : ∀ p ∈ ps, Suffixy p) :
    Suffixy (seqF ps) := by
  induction ps with
  | nil => exact suffixy_pure []
  | cons p rest ih =>
    exact suffixy_bind p _ (hps p (List.mem_cons_self p rest)) (fun t =>
      suffixy_bind (seqF rest) _ (ih (fun q hq => hps q (List.mem_cons_of_mem p hq)))
        (fun ts => suffixy_pure (t :: ts)))

/-- SepBy is OrElse, Bind, Fmap, ZeroOrMore and Pure combined. -/
theorem suffixy_sepBy {T U : Type} (fuel : Nat) (p : ParserF T) (sep : ParserF U)
    (hp : Suffixy p) (hsep : Suffixy sep) : Suffixy (sepByF fuel p sep) := by
  refine suffixy_orElse _ ?_
  intro q hq
  simp only [List.mem_cons, List.mem_singleton] at hq
  rcases hq with hq | hq | hq
  · rw [hq]
    exact suffixy_bind p _ hp (fun first =>
      suffixy_fmap _ _ (suffixy_zeroOrMore fuel _ (suffixy_bind sep _ hsep (fun _ => hp))))
  · rw [hq]; exact suffixy_pure []
  · cases hq

/-- Between keeps only the middle value but consumes left to right. -/
theorem suffixy_between {T U V : Type} (p : ParserF T) (q : ParserF U) (r : ParserF V)
    (hp : Suffixy p) (hq : Suffixy q) (hr : Suffixy r) : Suffixy (betweenP p q r) :=
  suffixy_bind p _ hp (fun _ =>
    suffixy_bind q _ hq (fun t => suffixy_bind r _ hr (fun _ => suffixy_pure t)))

/-- OmitLeft is Bind with the first value discarded. -/
theorem suffixy_omitLeft {T U : Type} (p : ParserF T) (q : ParserF U)
    (hp : Suffixy p) (hq : Suffixy q) : Suffixy (omitLeftP p q) :=
  suffixy_bind p _ hp (fun _ => hq)

/-- OmitRight is Bind with the second value discarded. -/
theorem suffixy_omitRight {T U : Type} (p : ParserF T) (q : ParserF U)
    (hp : Suffixy p) (hq : Suffixy q) : Suffixy (omitRightP p q) :=
  suffixy_bind p _ hp (fun t => suffixy_bind q _ hq (fun _ => suffixy_pure t))

/-- Spaces is Fmap of ZeroOrMore of a Satisfy. -/
theorem suffixy_spaces (fuel : Nat) : Suffixy (spacesF fuel) :=
  suffixy_fmap _ _ (suffixy_zeroOrMore fuel spaceP (suffixy_satisfy _))

/-- Trim wraps the parser in leading and trailing Spaces. -/
theorem suffixy_trim {T : Type} (fuel : Nat) (p : ParserF T) (hp : Suffixy p) :
    Suffixy (trimF fuel p) :=
  suffixy_omitLeft _ _ (suffixy_spaces fuel) (suffixy_omitRight _ _ hp (suffixy_spaces fuel))

/-- Lazy runs the deferred parser on the same input. -/
theorem suffixy_lazy {T : Type} (f : Unit → ParserF T) (hf : Suffixy (f ())) :
    Suffixy (lazyP f) := fun s w r h => hf s w r h

/-- SatisfyWith post-filters with Pure or Fail after the parser. -/
theorem suffixy_satisfyWith {T : Type} (p : ParserF T) (f : T → Bool) (hp : Suffixy p) :
    Suffixy (satisfyWithP p f) := by
  refine suffixy_bind p _ hp (fun t => ?_)
  by_cases hf : f t
  · rw [if_pos hf]; exact suffixy_pure t
  · rw [if_neg hf]; exact suffixy_fail

/-- C7: parses never reorder or duplicate input: every primitive of the
library (Pure, Fail, Satisfy, Str, String) returns, on success, a
remaining input that is a suffix of the input passed in, and every
combinator (Fmap, Bind, OrElse, ZeroOrMore, OneOrMore, ZeroOrOne,
SepBy, Seq, Between, OmitLeft, OmitRight, Trim, Lazy, SatisfyWith)
preserves that invariant — hence every parser built from them
satisfies it. -/
theorem remaining_suffix_closure :
    (∀ (T : Type) (v : T), Suffixy (pureP v))
    ∧ (∀ (T : Type), Suffixy (failP (T := T)))
    ∧ (∀ f, Suffixy (satisfyP f))
    ∧ (∀ l, Suffixy (strP l))
    ∧ Suffixy stringP
    ∧ (∀ (T U : Type) (p : ParserF T) (f : T → U), Suffixy p → Suffixy (fmapP p f))
    ∧ (∀ (T U : Type) (p : ParserF T) (f : T → ParserF U),
        Suffixy p → (∀ v, Suffixy (f v)) → Suffixy (bindP p f))
    ∧ (∀ (T : Type) (ps : List (ParserF T)), (∀ p ∈ ps, Suffixy p) → Suffixy (orElseP ps))
    ∧ (∀ (T : Type) (fuel : Nat) (p : ParserF T), Suffixy p → Suffixy (zeroOrMoreF fuel p))
    ∧ (∀ (T : Type) (fuel : Nat) (p : ParserF T), Suffixy p → Suffixy (oneOrMoreF fuel p))
    ∧ (∀ (T : Type) (p : ParserF T), Suffixy p → Suffixy (zeroOrOneP p))
    ∧ (∀ (T U : Type) (fuel : Nat) (p : ParserF T) (sep : ParserF U),
        Suffixy p → Suffixy sep → Suffixy (sepByF fuel p sep))
    ∧ (∀ (T : Type) (ps : List (ParserF T)), (∀ p ∈ ps, Suffixy p) → Suffixy (seqF ps))
    ∧ (∀ (T U V : Type) (p : ParserF T) (q : ParserF U) (r : ParserF V),
        Suffixy p → Suffixy q → Suffixy r → Suffixy (betweenP p q r))
    ∧ (∀ (T U : Type) (p : ParserF T) (q : ParserF U),
        Suffixy p → Suffixy q → Suffixy (omitLeftP p q))
    ∧ (∀ (T U : Type) (p : ParserF T) (q : ParserF U),
        Suffixy p → Suffixy q → Suffixy (omitRightP p q))
    ∧ (∀ (T : Type) (fuel : Nat) (p : ParserF T), Suffixy p → Suffixy (trimF fuel p))
    ∧ (∀ (T : Type) (f : Unit → ParserF T), Suffixy (f ()) → Suffixy (lazyP f))
    ∧ (∀ (T : Type) (p : ParserF T) (f : T → Bool), Suffixy p → Suffixy (satisfyWithP p f)) :=
  ⟨fun _ v => suffixy_pure v, fun _ => suffixy_fail, suffixy_satisfy, suffixy_str,
   suffixy_string,
   fun _ _ p f hp => suffixy_fmap p f hp,
   fun _ _ p f hp hf => suffixy_bind p f hp hf,
   fun _ ps hps => suffixy_orElse ps hps,
   fun _ fuel p hp => suffixy_zeroOrMore fuel p hp,
   fun _ fuel p hp => suffixy_oneOrMore fuel p hp,
   fun _ p hp => suffixy_zeroOrOne p hp,
   fun _ _ fuel p sep hp hsep => suffixy_sepBy fuel p sep hp hsep,
   fun _ ps hps => suffixy_seq ps hps,
   fun _ _ _ p q r hp hq hr => suffixy_between p q r hp hq hr,
   fun _ _ p q hp hq => suffixy_omitLeft p q hp hq,
   fun _ _ p q hp hq => suffixy_omitRight p q hp hq,
   fun _ fuel p hp => suffixy_trim fuel p hp,
   fun _ f hf => suffixy_lazy f hf,
   fun _ p f hp => suffixy_satisfyWith p f hp⟩

/-- C7 witness: the Bind closure conjunct, with the Satisfy conjunct
discharging its two premises, applied to a concrete two-byte parse of
[97, 99, 100]: the remaining input [100] is a suffix of the input. -/
theorem remaining_suffix_closure_witness :
    List.IsSuffix [100] [97, 99, 100] :=
  remaining_suffix_closure.2.2.2.2.2.2.1 Nat Nat (satisfyP (fun c => c == 97))
    (fun _ => satisfyP (fun c => c == 99))
    (remaining_suffix_closure.2.2.1 (fun c => c == 97))
    (fun _ => remaining_suffix_closure.2.2.1 (fun c => c == 99))
    [97, 99, 100] 99 [100] (by decide)

/-- A StrAccept derivation predicts the scanning loop's result, for any
already-accumulated contents. -/
theorem strAccept_scan :
    ∀ (l cs r : Bytes), StrAccept l cs r →
    ∀ acc, stringScan l false acc = some (acc ++ cs, r) := by
  intro l cs r h
  induction h with
  | close r => intro acc; simp [stringScan]
  | esc c l cs r h ih =>
    intro acc
    have h1 : stringScan (92 :: c :: l) false acc = stringScan (c :: l) true acc := by
      simp [stringScan]
    have h2 : stringScan (c :: l) true acc = stringScan l false (acc ++ [c]) := by
      simp [stringScan]
    rw [h1, h2, ih (acc ++ [c])]
    simp
  | plain c l cs r h34 h92 h ih =>
    intro acc
    have h1 : stringScan (c :: l) false acc = stringScan l false (acc ++ [c]) := by
      simp [stringScan, h34, h92]
    rw [h1, ih (acc ++ [c])]
    simp

/-- A successful scan yields a StrAccept derivation (the accumulated
prefix splits off the produced contents). -/
theorem scan_strAccept :
    ∀ (n : Nat) (l : Bytes), l.length ≤ n →
    ∀ (acc b r : Bytes), stringScan l false acc = some (b, r) →
    ∃ cs, b = acc ++ cs ∧ StrAccept l cs r := by
  intro n
  induction n with
  | zero =>
    intro l hl acc b r h
    have hnil : l = [] := List.eq_nil_of_length_eq_zero (Nat.le_zero.mp hl)
    subst hnil
    simp [stringScan] at h
  | succ n ih =>
    intro l hl acc b r h
    cases l with
    | nil => simp [stringScan] at h
    | cons c rest =>
      by_cases h92 : c = 92
      · subst h92
        rw [show stringScan (92 :: rest) false acc = stringScan rest true acc from by
          simp [stringScan]] at h
        cases rest with
        | nil => simp [stringScan] at h
        | cons c₂ rest₂ =>
          rw [show stringScan (c₂ :: rest₂) true acc = stringScan rest₂ false (acc ++ [c₂])
              from by simp [stringScan]] at h
          have hlen : rest₂.length ≤ n := by simp at hl; omega
          obtain ⟨cs, hb, hacc⟩ := ih rest₂ hlen (acc ++ [c₂]) b r h
          exact ⟨c₂ :: cs, by simp [hb], StrAccept.esc c₂ rest₂ cs r hacc⟩
      · by_cases h34 : c = 34
        · subst h34
          rw [show stringScan (34 :: rest) false acc = some (acc, rest) from by
            simp [stringScan]] at h
          simp only [Option.some.injEq, Prod.mk.injEq] at h
          obtain ⟨hb, hr⟩ := h
          subst hb
          subst hr
          exact ⟨[], by simp, StrAccept.close rest⟩
        · rw [show stringScan (c :: rest) false acc = stringScan rest false (acc ++ [c])
              from by simp [stringScan, h92, h34]] at h
          have hlen : rest.length ≤ n := by simp at hl; omega
          obtain ⟨cs, hb, hacc⟩ := ih rest hlen (acc ++ [c]) b r h
          exact ⟨c :: cs, by simp [hb], StrAccept.plain c rest cs r h34 h92 hacc⟩

/-- C8: the quoted-string parser fails unless the input starts with a
double quote; after the opening quote its successes are exactly the
StrAccept derivations — a backslash makes the following byte literal
(appended uninterpreted), an unescaped double quote closes the string
with the scanned contents as value and the text after it as remaining
input — and when no such derivation exists (no unescaped closing quote
is ever found) the parser fails. -/
theorem stringP_spec :
    ∀ (s l cs r : Bytes),
    (s.head? ≠ some 34 → stringP s = PR.fail)
    ∧ (stringP (34 :: l) = PR.ok cs r ↔ StrAccept l cs r)
    ∧ ((¬ ∃ cs' r', StrAccept l cs' r') → stringP (34 :: l) = PR.fail) := by
  intro s l cs r
  refine ⟨?_, ⟨?_, ?_⟩, ?_⟩
  · intro hh
    cases s with
    | nil => rfl
    | cons c rest =>
      have hc : c ≠ 34 := by
        intro e
        exact hh (by rw [e]; rfl)
      simp only [stringP]
      rw [if_neg hc]
  · intro h
    simp only [stringP, if_true] at h
    cases hscan : stringScan l false [] with
    | none => rw [hscan] at h; cases h
    | some p =>
      rw [hscan] at h
      cases p with
      | mk b r' =>
        dsimp only at h
        simp only [PR.ok.injEq] at h
        obtain ⟨hb, hr⟩ := h
        subst hb
        subst hr
        obtain ⟨cs', hcs, hacc⟩ := scan_strAccept l.length l (le_refl _) [] _ _ hscan
        rw [List.nil_append] at hcs
        rw [hcs]
        exact hacc
  · intro hacc
    have hs := strAccept_scan l cs r hacc []
    rw [List.nil_append] at hs
    simp only [stringP, if_true]
    rw [hs]
  · intro hnone
    cases hscan : stringScan l false [] with
    | some p =>
      exfalso
      apply hnone
      obtain ⟨b, r'⟩ := p
      obtain ⟨cs', hcs, hacc⟩ := scan_strAccept l.length l (le_refl _) [] b r' hscan
      exact ⟨cs', r', hacc⟩
    | none =>
      simp only [stringP, if_true]
      rw [hscan]

/-- C8 witness: the input quote, 'a', quote, 'z' — the iff applied with
an explicit StrAccept derivation: contents [97], remaining [122]. -/
theorem stringP_spec_witness :
    stringP [34, 97, 34, 122] = PR.ok [97] [122] :=
  (stringP_spec [] [97, 34, 122] [97] [122]).2.1.mpr
    (StrAccept.plain 97 [34, 122] [] [122] (by decide) (by decide) (StrAccept.close [122]))

/-- C5 witness: the iff applied at `Str "a"` on "b": the first
application fails, so OneOrMore fails. -/
theorem oneOrMore_fail_iff_witness :
    oneOrMoreF 2 (strP (mkStr "a")) (mkStr "b") = PR.fail :=
  (oneOrMore_fail_iff (strP (mkStr "a")) (mkStr "b") 2).mpr (by decide)
